import Mathlib

/-!
Verification of the parallel AES-CTR engine of this repository
(`aes_openmp.c`, `aes_openmp_shared_ctx.c`, `aes_openmp_false_sharing.c`,
`aes_openmp_nowait.c`, driven by `benchmark.c`) against its specification.

Modelling conventions:
* a C `uint8_t` is a `Nat`; the type invariant `< 256` is carried as a
  hypothesis where a claim needs it;
* buffers and the 16-byte IV are `List Nat`;
* the block-cipher primitive (`AES_ECB_encrypt` from `aes.c`, an external
  capability per the spec) is an explicit parameter
  `E : RoundKey → block → block` of every transform;
* the OpenMP fan-out is sequentialised: each thread's `omp for` chunk only
  reads `initial_iv` and the (identical) round key and writes its own disjoint
  16-byte buffer slices, so the parallel region is modelled as folding the
  per-block operation over the workers' chunks in worker order.
-/

/-- `AES_BLOCKLEN` from `aes.h`: the AES block size in bytes (always 16). -/
def AES_BLOCKLEN : Nat := 16

/-- `MAX_THREADS` from `aes_openmp_false_sharing.c`: the static dimension of
the shared scratch arrays `thread_buffers` and `thread_ivs`. -/
def MAX_THREADS : Nat := 256

/-- Value of a byte list read as a little-endian base-256 integer. -/
def leVal : List Nat → Nat
  | [] => 0
  | d :: ds => d + 256 * leVal ds

/-- Value of a byte list read as a big-endian base-256 integer — the reading
of the 16-byte IV that `IncrementIvBy` treats "as a big-endian 128-bit
counter". -/
def beVal (l : List Nat) : Nat := leVal l.reverse

/-- The loop of `IncrementIvBy`, acting on the bytes from least-significant to
most-significant, i.e. on the reverse of the big-endian IV:
`for (int i = AES_BLOCKLEN - 1; i >= 0 && carry > 0; --i) {`
`  size_t sum = Iv[i] + (carry & 0xFF);`
`  Iv[i] = (uint8_t)(sum & 0xFF);`
`  carry = (carry >> 8) + (sum >> 8); }`
The `carry = 0` branch is the loop's early exit (`carry > 0` in the guard),
which leaves the remaining (more significant) bytes untouched. -/
def incBytesLE : List Nat → Nat → List Nat
  | [], _ => []
  | d :: ds, carry =>
    if carry = 0 then d :: ds
    else
      ((d + (carry &&& 0xFF)) &&& 0xFF) ::
        incBytesLE ds ((carry >>> 8) + ((d + (carry &&& 0xFF)) >>> 8))

/-- `IncrementIvBy` — the identical static function that appears in
`aes_openmp.c`, `aes_openmp_shared_ctx.c`, `aes_openmp_false_sharing.c` and
`aes_openmp_nowait.c`: add `blocks` to the 16-byte big-endian counter `Iv`,
propagating the carry from the last byte leftward. -/
def IncrementIvBy (Iv : List Nat) (blocks : Nat) : List Nat :=
  (incBytesLE Iv.reverse blocks).reverse

/-- `struct AES_ctx` from `aes.h`: the expanded key schedule (opaque here) and
the 16-byte IV/counter state. -/
structure AES_ctx where
  RoundKey : List Nat
  Iv : List Nat
deriving DecidableEq, Repr

/- ### The per-block XOR loop and the per-block CTR operation -/

/-- The byte-XOR loop `for (i = 0; i < n; ++i) { buf[pos + i] ^= ks[i]; }`
shared by the block loop (`buf[buf_idx + i] ^= buffer[i]`, `n = AES_BLOCKLEN`,
`pos = block_idx * AES_BLOCKLEN`) and the remainder loop
(`for (i = num_blocks * AES_BLOCKLEN; i < length; ++i, ++bi) buf[i] ^= buffer[bi]`,
`pos = num_blocks * AES_BLOCKLEN`, `n = length - pos`). -/
def xorLoop (buf ks : List Nat) (pos : Nat) : Nat → List Nat
  | 0 => buf
  | n + 1 =>
    (xorLoop buf ks pos n).set (pos + n)
      ((xorLoop buf ks pos n).getD (pos + n) 0 ^^^ ks.getD n 0)

/-- The body of the `omp for` loop, identical in all four parallel variants:
compute this block's counter (`memcpy(thread_iv, initial_iv); IncrementIvBy(thread_iv, block_idx)`),
encrypt it (`memcpy(buffer, thread_iv); AES_ECB_encrypt(..., buffer)`), and
XOR the keystream into the caller's buffer at `block_idx * AES_BLOCKLEN`. -/
def ctrBlockOp (E : List Nat → List Nat → List Nat)
    (RoundKey initial_iv : List Nat) (buf : List Nat) (block_idx : Nat) : List Nat :=
  xorLoop buf (E RoundKey (IncrementIvBy initial_iv block_idx))
    (block_idx * AES_BLOCKLEN) AES_BLOCKLEN

/-- The keystream byte that CTR mode XORs into buffer position `j`: byte
`j mod 16` of the encryption of counter `initial_iv + (j div 16)`. -/
def ctrKeystreamByte (E : List Nat → List Nat → List Nat)
    (RoundKey initial_iv : List Nat) (j : Nat) : Nat :=
  (E RoundKey (IncrementIvBy initial_iv (j / AES_BLOCKLEN))).getD (j % AES_BLOCKLEN) 0

/- ### The static work partition -/

/-- Modelled from the spec: the contiguous static partition behind
`#pragma omp for schedule(static)` is implemented by the OpenMP runtime, not
by code under `src/`.  Spec 4.2: an even split of `num_blocks` over
`num_workers` with the remainder blocks distributed to the first ranges.
`wStart` is the first block index of worker `w`'s range. -/
def wStart (num_blocks num_workers w : Nat) : Nat :=
  w * (num_blocks / num_workers) + min w (num_blocks % num_workers)

/-- Modelled from the spec (see `wStart`): the number of blocks in worker
`w`'s range — `num_blocks / num_workers`, plus one of the remainder blocks
for the first `num_blocks % num_workers` workers. -/
def wSize (num_blocks num_workers w : Nat) : Nat :=
  num_blocks / num_workers + if w < num_blocks % num_workers then 1 else 0

/-- Modelled from the spec (see `wStart`): worker `w`'s contiguous half-open
range of block indices, as a list. -/
def workerBlocks (num_blocks num_workers w : Nat) : List Nat :=
  List.range' (wStart num_blocks num_workers w) (wSize num_blocks num_workers w)

/-- Modelled from the spec: worker-count resolution happens in the OpenMP
runtime (`omp_set_num_threads` and parallel-team creation), not in code under
`src/`; spec 7(c) requires a requested worker count of zero to be rejected or
coerced to one, and an OpenMP parallel region always executes with a team of
at least one thread. -/
def resolveWorkerCount (requested : Nat) : Nat :=
  if requested = 0 then 1 else requested

/- ### The CTR transforms -/

/-- Modelled from the spec: the serial reference `AES_CTR_xcrypt_buffer` lives
in `aes.c`, which is not under `src/` (only its declaration in `aes.h` and its
callers in `benchmark.c` are).  Spec 4.3/4.5/5: process the whole blocks in
block order, each block's counter being `initial_counter + block_index` via
Counter Arithmetic; afterwards, if `length mod block_size != 0`, XOR the first
`length mod block_size` bytes of the keystream block for counter
`initial_counter + num_blocks` into the tail and advance the persisted counter
by one additional block. -/
def AES_CTR_xcrypt_buffer (E : List Nat → List Nat → List Nat)
    (ctx : AES_ctx) (buf : List Nat) (length : Nat) : AES_ctx × List Nat :=
  let num_blocks := length / AES_BLOCKLEN
  let buf1 := (List.range num_blocks).foldl (ctrBlockOp E ctx.RoundKey ctx.Iv) buf
  let Iv1 := IncrementIvBy ctx.Iv num_blocks
  if length % AES_BLOCKLEN ≠ 0 then
    (⟨ctx.RoundKey, IncrementIvBy Iv1 1⟩,
      xorLoop buf1 (E ctx.RoundKey Iv1) (num_blocks * AES_BLOCKLEN)
        (length - num_blocks * AES_BLOCKLEN))
  else
    (⟨ctx.RoundKey, Iv1⟩, buf1)

/-- `AES_CTR_xcrypt_buffer_openmp` from `aes_openmp.c`: save `initial_iv`;
in the parallel region each thread copies the key schedule into
`thread_local_ctx` and runs the statically scheduled block loop over its
chunk (`workerBlocks`); after the join, `ctx->Iv` is rebuilt as
`initial_iv + num_blocks`; the trailing partial block is handled sequentially
with `remainder_ctx` (another copy of the same key schedule) and the counter
is incremented once more.  `num_threads` is the OpenMP team size. -/
def AES_CTR_xcrypt_buffer_openmp (E : List Nat → List Nat → List Nat)
    (num_threads : Nat) (ctx : AES_ctx) (buf : List Nat) (length : Nat) :
    AES_ctx × List Nat :=
  let num_blocks := length / AES_BLOCKLEN
  let initial_iv := ctx.Iv
  let thread_local_RoundKey := ctx.RoundKey
  let buf1 := (List.range num_threads).foldl
    (fun b w => (workerBlocks num_blocks num_threads w).foldl
      (ctrBlockOp E thread_local_RoundKey initial_iv) b) buf
  let Iv1 := IncrementIvBy initial_iv num_blocks
  if length % AES_BLOCKLEN ≠ 0 then
    let remainder_RoundKey := ctx.RoundKey
    (⟨ctx.RoundKey, IncrementIvBy Iv1 1⟩,
      xorLoop buf1 (E remainder_RoundKey Iv1) (num_blocks * AES_BLOCKLEN)
        (length - num_blocks * AES_BLOCKLEN))
  else
    (⟨ctx.RoundKey, Iv1⟩, buf1)

/-- `AES_CTR_xcrypt_buffer_openmp_shared_ctx` from `aes_openmp_shared_ctx.c`:
identical control flow to `AES_CTR_xcrypt_buffer_openmp`, but the threads and
the remainder step read the shared `ctx->RoundKey` directly instead of taking
thread-local copies (`AES_ECB_encrypt(ctx, buffer)`). -/
def AES_CTR_xcrypt_buffer_openmp_shared_ctx (E : List Nat → List Nat → List Nat)
    (num_threads : Nat) (ctx : AES_ctx) (buf : List Nat) (length : Nat) :
    AES_ctx × List Nat :=
  let num_blocks := length / AES_BLOCKLEN
  let initial_iv := ctx.Iv
  let buf1 := (List.range num_threads).foldl
    (fun b w => (workerBlocks num_blocks num_threads w).foldl
      (ctrBlockOp E ctx.RoundKey initial_iv) b) buf
  let Iv1 := IncrementIvBy initial_iv num_blocks
  if length % AES_BLOCKLEN ≠ 0 then
    (⟨ctx.RoundKey, IncrementIvBy Iv1 1⟩,
      xorLoop buf1 (E ctx.RoundKey Iv1) (num_blocks * AES_BLOCKLEN)
        (length - num_blocks * AES_BLOCKLEN))
  else
    (⟨ctx.RoundKey, Iv1⟩, buf1)

/-- `AES_CTR_xcrypt_buffer_openmp_false_sharing` from
`aes_openmp_false_sharing.c`: same control flow again, except that each
thread's scratch counter and scratch block live at
`thread_ivs[thread_id]` / `thread_buffers[thread_id]` inside the shared
unpadded static arrays.  Both scratch slots are fully overwritten
(`memcpy` of all `AES_BLOCKLEN` bytes) before every use, so their previous
contents never flow into the computed values; the value-level model is
therefore the same per-block operation.  The array indexing itself is the
subject of `fsScratchAccess`. -/
def AES_CTR_xcrypt_buffer_openmp_false_sharing (E : List Nat → List Nat → List Nat)
    (num_threads : Nat) (ctx : AES_ctx) (buf : List Nat) (length : Nat) :
    AES_ctx × List Nat :=
  let num_blocks := length / AES_BLOCKLEN
  let initial_iv := ctx.Iv
  let thread_local_RoundKey := ctx.RoundKey
  let buf1 := (List.range num_threads).foldl
    (fun b w => (workerBlocks num_blocks num_threads w).foldl
      (ctrBlockOp E thread_local_RoundKey initial_iv) b) buf
  let Iv1 := IncrementIvBy initial_iv num_blocks
  if length % AES_BLOCKLEN ≠ 0 then
    let remainder_RoundKey := ctx.RoundKey
    (⟨ctx.RoundKey, IncrementIvBy Iv1 1⟩,
      xorLoop buf1 (E remainder_RoundKey Iv1) (num_blocks * AES_BLOCKLEN)
        (length - num_blocks * AES_BLOCKLEN))
  else
    (⟨ctx.RoundKey, Iv1⟩, buf1)

/-- `AES_CTR_xcrypt_buffer_openmp_nowait` from `aes_openmp_nowait.c`: the
`nowait` clause only removes the barrier after the `omp for` loop; the
implicit barrier at the end of the parallel region still orders every block
write before the sequential tail, so the observable behaviour is that of
`AES_CTR_xcrypt_buffer_openmp` (the source's own comment says as much). -/
def AES_CTR_xcrypt_buffer_openmp_nowait (E : List Nat → List Nat → List Nat)
    (num_threads : Nat) (ctx : AES_ctx) (buf : List Nat) (length : Nat) :
    AES_ctx × List Nat :=
  let num_blocks := length / AES_BLOCKLEN
  let initial_iv := ctx.Iv
  let thread_local_RoundKey := ctx.RoundKey
  let buf1 := (List.range num_threads).foldl
    (fun b w => (workerBlocks num_blocks num_threads w).foldl
      (ctrBlockOp E thread_local_RoundKey initial_iv) b) buf
  let Iv1 := IncrementIvBy initial_iv num_blocks
  if length % AES_BLOCKLEN ≠ 0 then
    let remainder_RoundKey := ctx.RoundKey
    (⟨ctx.RoundKey, IncrementIvBy Iv1 1⟩,
      xorLoop buf1 (E remainder_RoundKey Iv1) (num_blocks * AES_BLOCKLEN)
        (length - num_blocks * AES_BLOCKLEN))
  else
    (⟨ctx.RoundKey, Iv1⟩, buf1)

/-- The access `thread_ivs[thread_id]` / `thread_buffers[thread_id]` into the
static arrays of `aes_openmp_false_sharing.c`: it designates a valid slot
exactly when `thread_id < MAX_THREADS`, and is out of bounds (`none`)
otherwise — the function performs no check of its own. -/
def fsScratchAccess (thread_id : Nat) : Option (Fin MAX_THREADS) :=
  if h : thread_id < MAX_THREADS then some ⟨thread_id, h⟩ else none

/- ### Concrete sample inputs used to instantiate the theorems -/

/-- A concrete (toy) block-cipher capability used to instantiate theorems on
concrete inputs: it ignores the key schedule and returns the block unchanged.
Any `E` satisfies the theorems; this one makes evaluation immediate. -/
def sampleE : List Nat → List Nat → List Nat := fun _ b => b

/-- A concrete 16-byte IV (all zeros) for instantiating theorems. -/
def sampleIv : List Nat := List.replicate 16 0

/-- A concrete context for instantiating theorems. -/
def sampleCtx : AES_ctx := ⟨[], sampleIv⟩

/-- A concrete 32-byte buffer for instantiating theorems. -/
def sampleBuf : List Nat := List.replicate 32 7


/- ### Arithmetic facts about `IncrementIvBy` -/

theorem and_255_eq_mod (x : Nat) : x &&& 255 = x % 256 := by
  have h := Nat.and_pow_two_sub_one_eq_mod x 8
  norm_num at h
  exact h

theorem shiftRight_8_eq_div (x : Nat) : x >>> 8 = x / 256 := by
  have h := Nat.shiftRight_eq_div_pow x 8
  norm_num at h
  exact h

theorem leVal_lt (ds : List Nat) (h : ∀ x ∈ ds, x < 256) :
    leVal ds < 256 ^ ds.length := by
  induction ds with
  | nil => simp [leVal]
  | cons d ds ih =>
    have hd : d < 256 := h d (by simp)
    have ht : leVal ds < 256 ^ ds.length := ih (fun x hx => h x (by simp [hx]))
    simp only [leVal, List.length_cons, pow_succ]
    calc d + 256 * leVal ds < 256 + 256 * leVal ds := by omega
    _ = 256 * (leVal ds + 1) := by ring
    _ ≤ 256 * 256 ^ ds.length := Nat.mul_le_mul_left _ (by omega)
    _ = 256 ^ ds.length * 256 := by ring

theorem incBytesLE_zero (ds : List Nat) : incBytesLE ds 0 = ds := by
  cases ds <;> simp [incBytesLE]

theorem length_incBytesLE (ds : List Nat) (c : Nat) :
    (incBytesLE ds c).length = ds.length := by
  induction ds generalizing c with
  | nil => simp [incBytesLE]
  | cons d ds ih =>
    by_cases hc : c = 0
    · simp [incBytesLE, hc]
    · simp [incBytesLE, hc, ih]

theorem mem_incBytesLE_lt (ds : List Nat) (c : Nat) (h : ∀ x ∈ ds, x < 256) :
    ∀ x ∈ incBytesLE ds c, x < 256 := by
  induction ds generalizing c with
  | nil => simp [incBytesLE]
  | cons d ds ih =>
    by_cases hc : c = 0
    · simpa [incBytesLE, hc] using h
    · intro x hx
      simp only [incBytesLE, if_neg hc, List.mem_cons] at hx
      rcases hx with rfl | hx
      · rw [and_255_eq_mod]
        omega
      · exact ih ((c >>> 8) + ((d + (c &&& 255)) >>> 8))
          (fun y hy => h y (by simp [hy])) x hx

theorem addCarry_mod (a b n : Nat) (ha : a < 256) :
    a + 256 * (b % 256 ^ n) = (a + 256 * b) % 256 ^ (n + 1) := by
  have hpos : 0 < 256 ^ n := pow_pos (by norm_num) n
  have hlt : b % 256 ^ n < 256 ^ n := Nat.mod_lt _ hpos
  have h1 : a + 256 * b = (a + 256 * (b % 256 ^ n)) + 256 ^ (n + 1) * (b / 256 ^ n) := by
    conv_lhs => rw [← Nat.div_add_mod b (256 ^ n)]
    ring
  have hX : a + 256 * (b % 256 ^ n) < 256 ^ (n + 1) := by
    have hp : 256 ^ (n + 1) = 256 * 256 ^ n := by ring
    omega
  rw [h1, Nat.add_mul_mod_self_left, Nat.mod_eq_of_lt hX]

theorem leVal_incBytesLE (ds : List Nat) (c : Nat) (h : ∀ x ∈ ds, x < 256) :
    leVal (incBytesLE ds c) = (leVal ds + c) % 256 ^ ds.length := by
  induction ds generalizing c with
  | nil => simp [incBytesLE, leVal, Nat.mod_one]
  | cons d ds ih =>
    have hd : d < 256 := h d (by simp)
    by_cases hc : c = 0
    · subst hc
      simp only [incBytesLE_zero, Nat.add_zero]
      exact (Nat.mod_eq_of_lt (leVal_lt _ h)).symm
    · simp only [incBytesLE, if_neg hc, leVal, List.length_cons]
      rw [ih ((c >>> 8) + ((d + (c &&& 255)) >>> 8)) (fun x hx => h x (by simp [hx]))]
      rw [and_255_eq_mod, and_255_eq_mod, shiftRight_8_eq_div, shiftRight_8_eq_div]
      rw [addCarry_mod _ _ _ (Nat.mod_lt _ (by omega))]
      congr 1
      omega

theorem beVal_IncrementIvBy (Iv : List Nat) (k : Nat) (h : ∀ x ∈ Iv, x < 256) :
    beVal (IncrementIvBy Iv k) = (beVal Iv + k) % 256 ^ Iv.length := by
  unfold IncrementIvBy beVal
  rw [List.reverse_reverse,
    leVal_incBytesLE _ _ (fun x hx => h x (List.mem_reverse.mp hx)),
    List.length_reverse]

theorem length_IncrementIvBy (Iv : List Nat) (k : Nat) :
    (IncrementIvBy Iv k).length = Iv.length := by
  simp [IncrementIvBy, length_incBytesLE]

theorem mem_IncrementIvBy_lt (Iv : List Nat) (k : Nat) (h : ∀ x ∈ Iv, x < 256) :
    ∀ x ∈ IncrementIvBy Iv k, x < 256 := by
  intro x hx
  simp only [IncrementIvBy, List.mem_reverse] at hx
  exact mem_incBytesLE_lt _ _ (fun y hy => h y (List.mem_reverse.mp hy)) x hx

theorem IncrementIvBy_zero (Iv : List Nat) : IncrementIvBy Iv 0 = Iv := by
  simp [IncrementIvBy, incBytesLE_zero]

theorem leVal_inj (ds1 : List Nat) : ∀ (ds2 : List Nat),
    ds1.length = ds2.length → (∀ x ∈ ds1, x < 256) → (∀ x ∈ ds2, x < 256) →
    leVal ds1 = leVal ds2 → ds1 = ds2 := by
  induction ds1 with
  | nil =>
    intro ds2 hlen _ _ _
    cases ds2 with
    | nil => rfl
    | cons e es => simp at hlen
  | cons d ds ih =>
    intro ds2 hlen h1 h2 hval
    cases ds2 with
    | nil => simp at hlen
    | cons e es =>
      simp only [leVal] at hval
      have hd : d < 256 := h1 d (by simp)
      have he : e < 256 := h2 e (by simp)
      have hde : d = e := by omega
      have htl : leVal ds = leVal es := by omega
      rw [hde, ih es (by simpa using hlen) (fun x hx => h1 x (by simp [hx]))
        (fun x hx => h2 x (by simp [hx])) htl]

theorem beVal_inj (l1 l2 : List Nat) (hlen : l1.length = l2.length)
    (h1 : ∀ x ∈ l1, x < 256) (h2 : ∀ x ∈ l2, x < 256)
    (hval : beVal l1 = beVal l2) : l1 = l2 := by
  have := leVal_inj l1.reverse l2.reverse (by simpa using hlen)
    (fun x hx => h1 x (List.mem_reverse.mp hx))
    (fun x hx => h2 x (List.mem_reverse.mp hx)) hval
  have h := congrArg List.reverse this
  simpa using h

theorem IncrementIvBy_add (Iv : List Nat) (k1 k2 : Nat) (h : ∀ x ∈ Iv, x < 256) :
    IncrementIvBy (IncrementIvBy Iv k1) k2 = IncrementIvBy Iv (k1 + k2) := by
  apply beVal_inj
  · simp [length_IncrementIvBy]
  · exact mem_IncrementIvBy_lt _ _ (mem_IncrementIvBy_lt _ _ h)
  · exact mem_IncrementIvBy_lt _ _ h
  · rw [beVal_IncrementIvBy _ _ (mem_IncrementIvBy_lt _ _ h),
      beVal_IncrementIvBy _ _ h, beVal_IncrementIvBy _ _ h,
      length_IncrementIvBy, Nat.mod_add_mod, Nat.add_assoc]

/- ### Pointwise behaviour of the XOR loops -/

theorem getD_set_eq_if (l : List Nat) (i j v : Nat) :
    (l.set i v).getD j 0 = if i = j ∧ j < l.length then v else l.getD j 0 := by
  simp only [List.getD_eq_getElem?_getD, List.getElem?_set]
  by_cases hij : i = j
  · subst hij
    by_cases hi : i < l.length
    · simp [hi]
    · simp only [if_pos rfl, if_neg hi, Option.getD_none]
      rw [List.getElem?_eq_none (by omega)]
      simp [hi]
  · simp [hij, fun h => hij (And.left h)]

theorem length_xorLoop (buf ks : List Nat) (pos n : Nat) :
    (xorLoop buf ks pos n).length = buf.length := by
  induction n with
  | zero => rfl
  | succ n ih => simp [xorLoop, ih]

theorem getD_xorLoop (buf ks : List Nat) (pos : Nat) :
    ∀ n, pos + n ≤ buf.length → ∀ j,
    (xorLoop buf ks pos n).getD j 0 =
      if pos ≤ j ∧ j < pos + n then buf.getD j 0 ^^^ ks.getD (j - pos) 0
      else buf.getD j 0 := by
  intro n
  induction n with
  | zero =>
    intro _ j
    simp only [xorLoop]
    rw [if_neg (by omega)]
  | succ n ih =>
    intro hn j
    have hn' : pos + n ≤ buf.length := by omega
    have hv : (xorLoop buf ks pos n).getD (pos + n) 0 = buf.getD (pos + n) 0 := by
      rw [ih hn' (pos + n)]
      rw [if_neg (by omega)]
    simp only [xorLoop]
    rw [getD_set_eq_if, length_xorLoop, hv]
    by_cases hj : pos + n = j ∧ j < buf.length
    · rcases hj with ⟨hj, hjl⟩
      subst hj
      rw [if_pos ⟨rfl, hjl⟩,
        if_pos (⟨by omega, by omega⟩ : pos ≤ pos + n ∧ pos + n < pos + (n + 1)),
        show pos + n - pos = n from by omega]
    · have hne : pos + n ≠ j := by
        intro he
        exact hj ⟨he, by omega⟩
      rw [if_neg hj, ih hn' j]
      by_cases hjr : pos ≤ j ∧ j < pos + n
      · rw [if_pos hjr, if_pos (by omega)]
      · rw [if_neg hjr, if_neg (by omega)]

theorem length_ctrBlockOp (E : List Nat → List Nat → List Nat)
    (K iv0 buf : List Nat) (b : Nat) :
    (ctrBlockOp E K iv0 buf b).length = buf.length :=
  length_xorLoop _ _ _ _

theorem getD_ctrBlockOp (E : List Nat → List Nat → List Nat)
    (K iv0 buf : List Nat) (b : Nat)
    (h : b * AES_BLOCKLEN + AES_BLOCKLEN ≤ buf.length) (j : Nat) :
    (ctrBlockOp E K iv0 buf b).getD j 0 =
      if b * AES_BLOCKLEN ≤ j ∧ j < b * AES_BLOCKLEN + AES_BLOCKLEN
      then buf.getD j 0 ^^^ ctrKeystreamByte E K iv0 j
      else buf.getD j 0 := by
  unfold ctrBlockOp
  rw [getD_xorLoop _ _ _ _ h j]
  by_cases hj : b * AES_BLOCKLEN ≤ j ∧ j < b * AES_BLOCKLEN + AES_BLOCKLEN
  · rw [if_pos hj, if_pos hj]
    unfold ctrKeystreamByte
    rw [show j / AES_BLOCKLEN = b from by
        simp only [AES_BLOCKLEN] at hj ⊢; omega,
      show j % AES_BLOCKLEN = j - b * AES_BLOCKLEN from by
        simp only [AES_BLOCKLEN] at hj ⊢; omega]
  · rw [if_neg hj, if_neg hj]

theorem length_foldl_ctrBlockOp (E : List Nat → List Nat → List Nat)
    (K iv0 : List Nat) (l : List Nat) :
    ∀ buf : List Nat, (l.foldl (ctrBlockOp E K iv0) buf).length = buf.length := by
  induction l with
  | nil => intro buf; rfl
  | cons a l ih =>
    intro buf
    rw [List.foldl_cons, ih, length_ctrBlockOp]

theorem getD_foldl_range' (E : List Nat → List Nat → List Nat) (K iv0 : List Nat) :
    ∀ (m s : Nat) (buf : List Nat), AES_BLOCKLEN * (s + m) ≤ buf.length → ∀ j,
    ((List.range' s m).foldl (ctrBlockOp E K iv0) buf).getD j 0 =
      if AES_BLOCKLEN * s ≤ j ∧ j < AES_BLOCKLEN * (s + m)
      then buf.getD j 0 ^^^ ctrKeystreamByte E K iv0 j
      else buf.getD j 0 := by
  intro m
  induction m with
  | zero =>
    intro s buf _ j
    rw [show List.range' s 0 = [] from rfl, List.foldl_nil,
      if_neg (by simp only [AES_BLOCKLEN]; omega)]
  | succ m ih =>
    intro s buf h j
    have hb : s * AES_BLOCKLEN + AES_BLOCKLEN ≤ buf.length := by
      simp only [AES_BLOCKLEN] at h ⊢; omega
    rw [List.range'_succ, List.foldl_cons]
    rw [ih (s + 1) (ctrBlockOp E K iv0 buf s)
      (by rw [length_ctrBlockOp]; simp only [AES_BLOCKLEN] at h ⊢; omega) j]
    by_cases h1 : AES_BLOCKLEN * (s + 1) ≤ j ∧ j < AES_BLOCKLEN * (s + 1 + m)
    · rw [if_pos h1, if_pos (by simp only [AES_BLOCKLEN] at h1 ⊢; omega)]
      rw [getD_ctrBlockOp E K iv0 buf s hb j,
        if_neg (by simp only [AES_BLOCKLEN] at h1 ⊢; omega)]
    · rw [if_neg h1, getD_ctrBlockOp E K iv0 buf s hb j]
      by_cases h2 : s * AES_BLOCKLEN ≤ j ∧ j < s * AES_BLOCKLEN + AES_BLOCKLEN
      · rw [if_pos h2, if_pos (by simp only [AES_BLOCKLEN] at h2 ⊢; omega)]
      · rw [if_neg h2, if_neg (by simp only [AES_BLOCKLEN] at h1 h2 ⊢; omega)]

/- ### The partition: consecutive ranges and coverage -/

theorem wStart_add (n W w : Nat) :
    wStart n W (w + 1) = wStart n W w + wSize n W w := by
  unfold wStart wSize
  rcases Nat.lt_or_ge w (n % W) with h | h
  · rw [Nat.min_eq_left (by omega), Nat.min_eq_left h.le, if_pos h, Nat.succ_mul]
    generalize n / W = q
    generalize w * q = a
    omega
  · rw [Nat.min_eq_right (by omega), Nat.min_eq_right h, if_neg (by omega), Nat.succ_mul]
    generalize n / W = q
    generalize w * q = a
    omega

theorem wStart_zero (n W : Nat) : wStart n W 0 = 0 := by
  simp [wStart]

theorem wStart_self (n W : Nat) (hW : 1 ≤ W) : wStart n W W = n := by
  unfold wStart
  have h1 : n % W < W := Nat.mod_lt _ (by omega)
  rw [Nat.min_eq_right h1.le]
  exact Nat.div_add_mod n W

theorem wStart_le_add (n W w k : Nat) : wStart n W w ≤ wStart n W (w + k) := by
  induction k with
  | zero => exact Nat.le_refl _
  | succ k ih =>
    rw [← Nat.add_assoc]
    have h := wStart_add n W (w + k)
    omega

theorem wStart_mono (n W : Nat) {w1 w2 : Nat} (h : w1 ≤ w2) :
    wStart n W w1 ≤ wStart n W w2 := by
  have := wStart_le_add n W w1 (w2 - w1)
  rw [show w1 + (w2 - w1) = w2 from by omega] at this
  exact this

theorem mem_workerBlocks_iff (n W w b : Nat) :
    b ∈ workerBlocks n W w ↔ wStart n W w ≤ b ∧ b < wStart n W (w + 1) := by
  unfold workerBlocks
  rw [List.mem_range', wStart_add n W w]
  constructor
  · rintro ⟨i, hi, rfl⟩
    omega
  · intro h
    exact ⟨b - wStart n W w, by omega, by omega⟩

theorem foldl_consecutive_ranges (f : List Nat → Nat → List Nat) (s : Nat → Nat)
    (hs : ∀ w, s w ≤ s (w + 1)) :
    ∀ (m : Nat) (buf : List Nat),
    (List.range m).foldl (fun b w => (List.range' (s w) (s (w + 1) - s w)).foldl f b) buf
      = (List.range' (s 0) (s m - s 0)).foldl f buf := by
  intro m
  induction m with
  | zero => intro buf; simp
  | succ m ih =>
    intro buf
    have h0m : s 0 ≤ s m := by
      clear ih
      induction m with
      | zero => exact Nat.le_refl _
      | succ m ih2 => exact Nat.le_trans ih2 (hs m)
    have hmm : s m ≤ s (m + 1) := hs m
    have hcat : List.range' (s 0) (s m - s 0) ++ List.range' (s m) (s (m + 1) - s m)
        = List.range' (s 0) (s (m + 1) - s 0) := by
      have happ := List.range'_append_1 (s 0) (s m - s 0) (s (m + 1) - s m)
      rw [show s 0 + (s m - s 0) = s m from by omega] at happ
      rw [happ]
      congr 1
      omega
    rw [List.range_succ, List.foldl_append, ih]
    simp only [List.foldl_cons, List.foldl_nil]
    rw [← List.foldl_append, hcat]

theorem fanOut_eq_serial_fold (E : List Nat → List Nat → List Nat)
    (K iv0 : List Nat) (n W : Nat) (hW : 1 ≤ W) (buf : List Nat) :
    (List.range W).foldl
      (fun b w => (workerBlocks n W w).foldl (ctrBlockOp E K iv0) b) buf
      = (List.range n).foldl (ctrBlockOp E K iv0) buf := by
  have hbody : ∀ (b : List Nat), ∀ w ∈ List.range W,
      (workerBlocks n W w).foldl (ctrBlockOp E K iv0) b
        = (List.range' (wStart n W w) (wStart n W (w + 1) - wStart n W w)).foldl
            (ctrBlockOp E K iv0) b := by
    intro b w _
    have hsz : wSize n W w = wStart n W (w + 1) - wStart n W w := by
      have := wStart_add n W w
      omega
    rw [workerBlocks, hsz]
  rw [List.foldl_ext _ _ buf hbody,
    foldl_consecutive_ranges (ctrBlockOp E K iv0) (wStart n W)
      (fun w => by
        show wStart n W w ≤ wStart n W (w + 1)
        have := wStart_add n W w
        omega) W buf,
    wStart_zero, wStart_self n W hW, List.range_eq_range', Nat.sub_zero]

/- ### Transform-level lemmas -/

theorem shared_ctx_eq_openmp (E : List Nat → List Nat → List Nat)
    (W : Nat) (ctx : AES_ctx) (buf : List Nat) (length : Nat) :
    AES_CTR_xcrypt_buffer_openmp_shared_ctx E W ctx buf length
      = AES_CTR_xcrypt_buffer_openmp E W ctx buf length := rfl

theorem false_sharing_eq_openmp (E : List Nat → List Nat → List Nat)
    (W : Nat) (ctx : AES_ctx) (buf : List Nat) (length : Nat) :
    AES_CTR_xcrypt_buffer_openmp_false_sharing E W ctx buf length
      = AES_CTR_xcrypt_buffer_openmp E W ctx buf length := rfl

theorem nowait_eq_openmp (E : List Nat → List Nat → List Nat)
    (W : Nat) (ctx : AES_ctx) (buf : List Nat) (length : Nat) :
    AES_CTR_xcrypt_buffer_openmp_nowait E W ctx buf length
      = AES_CTR_xcrypt_buffer_openmp E W ctx buf length := rfl

theorem openmp_eq_serial (E : List Nat → List Nat → List Nat)
    (W : Nat) (hW : 1 ≤ W) (ctx : AES_ctx) (buf : List Nat) (length : Nat) :
    AES_CTR_xcrypt_buffer_openmp E W ctx buf length
      = AES_CTR_xcrypt_buffer E ctx buf length := by
  simp only [AES_CTR_xcrypt_buffer_openmp, AES_CTR_xcrypt_buffer]
  rw [fanOut_eq_serial_fold E ctx.RoundKey ctx.Iv (length / AES_BLOCKLEN) W hW buf]

theorem serial_fst (E : List Nat → List Nat → List Nat)
    (ctx : AES_ctx) (buf : List Nat) (length : Nat) :
    (AES_CTR_xcrypt_buffer E ctx buf length).1 =
      ⟨ctx.RoundKey,
        if length % AES_BLOCKLEN ≠ 0
        then IncrementIvBy (IncrementIvBy ctx.Iv (length / AES_BLOCKLEN)) 1
        else IncrementIvBy ctx.Iv (length / AES_BLOCKLEN)⟩ := by
  simp only [AES_CTR_xcrypt_buffer]
  by_cases hrem : length % AES_BLOCKLEN = 0
  · rw [if_neg (not_not_intro hrem), if_neg (not_not_intro hrem)]
  · rw [if_pos hrem, if_pos hrem]

theorem length_serial_snd (E : List Nat → List Nat → List Nat)
    (ctx : AES_ctx) (buf : List Nat) (length : Nat) :
    (AES_CTR_xcrypt_buffer E ctx buf length).2.length = buf.length := by
  simp only [AES_CTR_xcrypt_buffer]
  by_cases hrem : length % AES_BLOCKLEN = 0
  · rw [if_neg (not_not_intro hrem)]
    exact length_foldl_ctrBlockOp E ctx.RoundKey ctx.Iv _ buf
  · rw [if_pos hrem]
    rw [show (((⟨ctx.RoundKey, IncrementIvBy (IncrementIvBy ctx.Iv (length / AES_BLOCKLEN)) 1⟩ : AES_ctx),
      xorLoop ((List.range (length / AES_BLOCKLEN)).foldl (ctrBlockOp E ctx.RoundKey ctx.Iv) buf)
        (E ctx.RoundKey (IncrementIvBy ctx.Iv (length / AES_BLOCKLEN)))
        (length / AES_BLOCKLEN * AES_BLOCKLEN) (length - length / AES_BLOCKLEN * AES_BLOCKLEN)).2)
      = xorLoop ((List.range (length / AES_BLOCKLEN)).foldl (ctrBlockOp E ctx.RoundKey ctx.Iv) buf)
        (E ctx.RoundKey (IncrementIvBy ctx.Iv (length / AES_BLOCKLEN)))
        (length / AES_BLOCKLEN * AES_BLOCKLEN) (length - length / AES_BLOCKLEN * AES_BLOCKLEN) from rfl]
    rw [length_xorLoop]
    exact length_foldl_ctrBlockOp E ctx.RoundKey ctx.Iv _ buf

theorem getD_serial (E : List Nat → List Nat → List Nat) (ctx : AES_ctx)
    (buf : List Nat) (length : Nat) (hL : length ≤ buf.length) (j : Nat) :
    (AES_CTR_xcrypt_buffer E ctx buf length).2.getD j 0 =
      if j < length then buf.getD j 0 ^^^ ctrKeystreamByte E ctx.RoundKey ctx.Iv j
      else buf.getD j 0 := by
  have hfold : ∀ j2 : Nat, ((List.range (length / AES_BLOCKLEN)).foldl
      (ctrBlockOp E ctx.RoundKey ctx.Iv) buf).getD j2 0 =
      if j2 < AES_BLOCKLEN * (length / AES_BLOCKLEN)
      then buf.getD j2 0 ^^^ ctrKeystreamByte E ctx.RoundKey ctx.Iv j2
      else buf.getD j2 0 := by
    intro j2
    rw [List.range_eq_range',
      getD_foldl_range' E ctx.RoundKey ctx.Iv (length / AES_BLOCKLEN) 0 buf
        (by simp only [AES_BLOCKLEN]; omega) j2]
    by_cases h2 : j2 < AES_BLOCKLEN * (length / AES_BLOCKLEN)
    · rw [if_pos (by simp only [AES_BLOCKLEN] at h2 ⊢; omega), if_pos h2]
    · rw [if_neg (by simp only [AES_BLOCKLEN] at h2 ⊢; omega), if_neg h2]
  have hlen1 : ((List.range (length / AES_BLOCKLEN)).foldl
      (ctrBlockOp E ctx.RoundKey ctx.Iv) buf).length = buf.length :=
    length_foldl_ctrBlockOp E ctx.RoundKey ctx.Iv _ buf
  simp only [AES_CTR_xcrypt_buffer]
  by_cases hrem : length % AES_BLOCKLEN = 0
  · rw [if_neg (not_not_intro hrem)]
    rw [hfold j]
    simp only [AES_BLOCKLEN] at hrem ⊢
    by_cases hj : j < length
    · rw [if_pos (by omega), if_pos hj]
    · rw [if_neg (by omega), if_neg hj]
  · rw [if_pos hrem]
    rw [show (((⟨ctx.RoundKey, IncrementIvBy (IncrementIvBy ctx.Iv (length / AES_BLOCKLEN)) 1⟩ : AES_ctx),
      xorLoop ((List.range (length / AES_BLOCKLEN)).foldl (ctrBlockOp E ctx.RoundKey ctx.Iv) buf)
        (E ctx.RoundKey (IncrementIvBy ctx.Iv (length / AES_BLOCKLEN)))
        (length / AES_BLOCKLEN * AES_BLOCKLEN) (length - length / AES_BLOCKLEN * AES_BLOCKLEN)).2)
      = xorLoop ((List.range (length / AES_BLOCKLEN)).foldl (ctrBlockOp E ctx.RoundKey ctx.Iv) buf)
        (E ctx.RoundKey (IncrementIvBy ctx.Iv (length / AES_BLOCKLEN)))
        (length / AES_BLOCKLEN * AES_BLOCKLEN) (length - length / AES_BLOCKLEN * AES_BLOCKLEN) from rfl]
    rw [getD_xorLoop _ _ _ _ (by rw [hlen1]; simp only [AES_BLOCKLEN]; omega) j, hfold j]
    by_cases hj1 : j < AES_BLOCKLEN * (length / AES_BLOCKLEN)
    · rw [if_neg (by simp only [AES_BLOCKLEN] at hj1 ⊢; omega), if_pos hj1,
        if_pos (by simp only [AES_BLOCKLEN] at hj1 ⊢; omega)]
    · by_cases hj2 : j < length
      · rw [if_pos (by simp only [AES_BLOCKLEN] at hj1 ⊢; omega), if_neg hj1, if_pos hj2]
        unfold ctrKeystreamByte
        rw [show j / AES_BLOCKLEN = length / AES_BLOCKLEN from by
            simp only [AES_BLOCKLEN] at hj1 ⊢; omega,
          show j - length / AES_BLOCKLEN * AES_BLOCKLEN = j % AES_BLOCKLEN from by
            simp only [AES_BLOCKLEN] at hj1 ⊢; omega]
      · rw [if_neg (by simp only [AES_BLOCKLEN] at hj1 hj2 ⊢; omega), if_neg hj1, if_neg hj2]

/- ### First component and pointwise corollaries for the parallel variant -/

theorem openmp_fst (E : List Nat → List Nat → List Nat)
    (W : Nat) (ctx : AES_ctx) (buf : List Nat) (length : Nat) :
    (AES_CTR_xcrypt_buffer_openmp E W ctx buf length).1 =
      ⟨ctx.RoundKey,
        if length % AES_BLOCKLEN ≠ 0
        then IncrementIvBy (IncrementIvBy ctx.Iv (length / AES_BLOCKLEN)) 1
        else IncrementIvBy ctx.Iv (length / AES_BLOCKLEN)⟩ := by
  simp only [AES_CTR_xcrypt_buffer_openmp]
  by_cases hrem : length % AES_BLOCKLEN = 0
  · rw [if_neg (not_not_intro hrem), if_neg (not_not_intro hrem)]
  · rw [if_pos hrem, if_pos hrem]

theorem openmp_RoundKey (E : List Nat → List Nat → List Nat)
    (W : Nat) (ctx : AES_ctx) (buf : List Nat) (length : Nat) :
    (AES_CTR_xcrypt_buffer_openmp E W ctx buf length).1.RoundKey = ctx.RoundKey := by
  rw [openmp_fst]

theorem openmp_Iv (E : List Nat → List Nat → List Nat)
    (W : Nat) (ctx : AES_ctx) (buf : List Nat) (length : Nat) :
    (AES_CTR_xcrypt_buffer_openmp E W ctx buf length).1.Iv =
      if length % AES_BLOCKLEN ≠ 0
      then IncrementIvBy (IncrementIvBy ctx.Iv (length / AES_BLOCKLEN)) 1
      else IncrementIvBy ctx.Iv (length / AES_BLOCKLEN) := by
  rw [openmp_fst]

theorem openmp_Iv_spec (E : List Nat → List Nat → List Nat)
    (W : Nat) (ctx : AES_ctx) (buf : List Nat) (length : Nat)
    (hlen : ctx.Iv.length = 16) (hbytes : ∀ x ∈ ctx.Iv, x < 256) :
    beVal (AES_CTR_xcrypt_buffer_openmp E W ctx buf length).1.Iv
        = (beVal ctx.Iv + (length + AES_BLOCKLEN - 1) / AES_BLOCKLEN) % 2 ^ 128 ∧
      (length = 0 → (AES_CTR_xcrypt_buffer_openmp E W ctx buf length).1.Iv = ctx.Iv) := by
  constructor
  · rw [openmp_Iv]
    by_cases hrem : length % AES_BLOCKLEN = 0
    · rw [if_neg (not_not_intro hrem), beVal_IncrementIvBy _ _ hbytes, hlen,
        show (256 : Nat) ^ 16 = 2 ^ 128 from by norm_num]
      congr 1
      simp only [AES_BLOCKLEN] at hrem ⊢
      omega
    · rw [if_pos hrem,
        beVal_IncrementIvBy _ _ (mem_IncrementIvBy_lt _ _ hbytes),
        beVal_IncrementIvBy _ _ hbytes, length_IncrementIvBy, hlen,
        show (256 : Nat) ^ 16 = 2 ^ 128 from by norm_num, Nat.mod_add_mod]
      congr 1
      simp only [AES_BLOCKLEN] at hrem ⊢
      omega
  · intro h0
    subst h0
    rw [openmp_Iv, if_neg (by simp [AES_BLOCKLEN]),
      show 0 / AES_BLOCKLEN = 0 from by decide, IncrementIvBy_zero]

theorem getD_of_getElem (l : List Nat) (i : Nat) (h : i < l.length) :
    l[i] = l.getD i 0 := by
  rw [List.getD_eq_getElem?_getD, List.getElem?_eq_getElem h]
  rfl

theorem openmp_involution (E : List Nat → List Nat → List Nat)
    (W : Nat) (ctx : AES_ctx) (buf : List Nat) (length : Nat)
    (hW : 1 ≤ W) (hL : length ≤ buf.length) :
    (AES_CTR_xcrypt_buffer_openmp E W ctx
      (AES_CTR_xcrypt_buffer_openmp E W ctx buf length).2 length).2 = buf := by
  have hlen1 : (AES_CTR_xcrypt_buffer_openmp E W ctx buf length).2.length = buf.length := by
    rw [openmp_eq_serial E W hW, length_serial_snd]
  have hL2 : length ≤ (AES_CTR_xcrypt_buffer_openmp E W ctx buf length).2.length := by
    omega
  apply List.ext_getElem
  · rw [openmp_eq_serial E W hW, length_serial_snd, hlen1]
  · intro i h1 h2
    rw [getD_of_getElem _ _ h1, getD_of_getElem _ _ h2,
      openmp_eq_serial E W hW ctx (AES_CTR_xcrypt_buffer_openmp E W ctx buf length).2 length,
      getD_serial E ctx _ length hL2 i]
    by_cases hi : i < length
    · rw [if_pos hi, openmp_eq_serial E W hW ctx buf length,
        getD_serial E ctx buf length hL i, if_pos hi, Nat.xor_cancel_right]
    · rw [if_neg hi, openmp_eq_serial E W hW ctx buf length,
        getD_serial E ctx buf length hL i, if_neg hi]

/- ### Partition coverage helpers -/

theorem exists_worker (n W : Nat) (hW : 1 ≤ W) (b : Nat) (hb : b < n) :
    ∃ w, w < W ∧ b ∈ workerBlocks n W w := by
  have key : ∀ m, b < wStart n W m →
      ∃ w, w < m ∧ wStart n W w ≤ b ∧ b < wStart n W (w + 1) := by
    intro m
    induction m with
    | zero =>
      intro h
      rw [wStart_zero] at h
      omega
    | succ m ih =>
      intro h
      rcases Nat.lt_or_ge b (wStart n W m) with h2 | h2
      · obtain ⟨w, hw, hw2⟩ := ih h2
        exact ⟨w, by omega, hw2⟩
      · exact ⟨m, by omega, h2, h⟩
  obtain ⟨w, hw, h1, h2⟩ := key W (by rw [wStart_self n W hW]; exact hb)
  exact ⟨w, hw, (mem_workerBlocks_iff n W w b).mpr ⟨h1, h2⟩⟩

theorem workerBlocks_disjoint_of_lt (n W w1 w2 : Nat) (hlt : w1 < w2) (b : Nat)
    (h1 : b ∈ workerBlocks n W w1) (h2 : b ∈ workerBlocks n W w2) : False := by
  rw [mem_workerBlocks_iff] at h1 h2
  have hm : wStart n W (w1 + 1) ≤ wStart n W w2 := wStart_mono n W (by omega)
  omega

theorem workerBlocks_disjoint (n W w1 w2 : Nat) (hne : w1 ≠ w2) (b : Nat)
    (h1 : b ∈ workerBlocks n W w1) : b ∉ workerBlocks n W w2 := by
  intro h2
  rcases Nat.lt_trichotomy w1 w2 with h | h | h
  · exact workerBlocks_disjoint_of_lt n W w1 w2 h b h1 h2
  · exact hne h
  · exact workerBlocks_disjoint_of_lt n W w2 w1 h b h2 h1

theorem partition_exactly_one (n W : Nat) (hW : 1 ≤ W) (b : Nat) (hb : b < n) :
    ∃! w, w < W ∧ b ∈ workerBlocks n W w := by
  obtain ⟨w, hw, hmem⟩ := exists_worker n W hW b hb
  refine ⟨w, ⟨hw, hmem⟩, ?_⟩
  intro y hy
  by_contra hne
  exact workerBlocks_disjoint n W y w hne b hy.2 hmem

theorem workerBlocks_subset (n W : Nat) (hW : 1 ≤ W) (w b : Nat) (hw : w < W)
    (hb : b ∈ workerBlocks n W w) : b < n := by
  rw [mem_workerBlocks_iff] at hb
  have hm : wStart n W (w + 1) ≤ wStart n W W := wStart_mono n W (by omega)
  have hs := wStart_self n W hW
  omega

/- ### The claims -/

/-- C1: for every block cipher `E`, key schedule, 16-byte initial counter,
buffer and length, and every worker count in {1,2,4,8,16}, each of the four
parallel CTR transforms (`AES_CTR_xcrypt_buffer_openmp`,
`AES_CTR_xcrypt_buffer_openmp_shared_ctx`,
`AES_CTR_xcrypt_buffer_openmp_false_sharing`,
`AES_CTR_xcrypt_buffer_openmp_nowait`) returns exactly the result of the
serial reference `AES_CTR_xcrypt_buffer` — byte-for-byte the same buffer and
the same final context; consequently all four strategies agree with each
other. -/
theorem claim_C1_worker_count_invariance (E : List Nat → List Nat → List Nat)
    (ctx : AES_ctx) (buf : List Nat) (length W : Nat)
    (hW : W ∈ [1, 2, 4, 8, 16]) :
    ∀ res ∈ [AES_CTR_xcrypt_buffer_openmp E W ctx buf length,
      AES_CTR_xcrypt_buffer_openmp_shared_ctx E W ctx buf length,
      AES_CTR_xcrypt_buffer_openmp_false_sharing E W ctx buf length,
      AES_CTR_xcrypt_buffer_openmp_nowait E W ctx buf length],
      res = AES_CTR_xcrypt_buffer E ctx buf length := by
  have h1 : 1 ≤ W := by
    simp only [List.mem_cons, List.not_mem_nil, or_false] at hW
    omega
  have hser := openmp_eq_serial E W h1 ctx buf length
  intro res hres
  simp only [List.mem_cons, List.not_mem_nil, or_false] at hres
  rcases hres with rfl | rfl | rfl | rfl
  · exact hser
  · rw [shared_ctx_eq_openmp]
    exact hser
  · rw [false_sharing_eq_openmp]
    exact hser
  · rw [nowait_eq_openmp]
    exact hser

/-- Witness for C1: the optimized parallel transform with 2 workers on a
17-byte buffer agrees with the serial reference. -/
theorem claim_C1_witness :
    (2 ∈ [1, 2, 4, 8, 16]) ∧
      AES_CTR_xcrypt_buffer_openmp sampleE 2 sampleCtx sampleBuf 17
        = AES_CTR_xcrypt_buffer sampleE sampleCtx sampleBuf 17 :=
  ⟨by decide,
    claim_C1_worker_count_invariance sampleE sampleCtx sampleBuf 17 2 (by decide)
      _ (List.mem_cons_self _ _)⟩

/-- C2: after any of the four parallel CTR transforms on `length` bytes, the
context's counter `Iv`, read as a big-endian 128-bit integer via `beVal`,
equals the initial counter plus `ceil(length / 16)` modulo `2 ^ 128`; in
particular for `length = 0` the counter bytes are unchanged. -/
theorem claim_C2_counter_advancement (E : List Nat → List Nat → List Nat)
    (W : Nat) (ctx : AES_ctx) (buf : List Nat) (length : Nat)
    (hlen : ctx.Iv.length = 16) (hbytes : ∀ x ∈ ctx.Iv, x < 256) :
    ∀ res ∈ [AES_CTR_xcrypt_buffer_openmp E W ctx buf length,
      AES_CTR_xcrypt_buffer_openmp_shared_ctx E W ctx buf length,
      AES_CTR_xcrypt_buffer_openmp_false_sharing E W ctx buf length,
      AES_CTR_xcrypt_buffer_openmp_nowait E W ctx buf length],
      beVal res.1.Iv
          = (beVal ctx.Iv + (length + AES_BLOCKLEN - 1) / AES_BLOCKLEN) % 2 ^ 128 ∧
        (length = 0 → res.1.Iv = ctx.Iv) := by
  have hspec := openmp_Iv_spec E W ctx buf length hlen hbytes
  intro res hres
  simp only [List.mem_cons, List.not_mem_nil, or_false] at hres
  rcases hres with rfl | rfl | rfl | rfl
  · exact hspec
  · rw [shared_ctx_eq_openmp]
    exact hspec
  · rw [false_sharing_eq_openmp]
    exact hspec
  · rw [nowait_eq_openmp]
    exact hspec

/-- Witness for C2: one full block plus one remainder byte advances the
counter by 2. -/
theorem claim_C2_witness :
    sampleCtx.Iv.length = 16 ∧
      beVal (AES_CTR_xcrypt_buffer_openmp sampleE 4 sampleCtx sampleBuf 17).1.Iv
        = (beVal sampleCtx.Iv + (17 + AES_BLOCKLEN - 1) / AES_BLOCKLEN) % 2 ^ 128 :=
  ⟨by decide,
    (claim_C2_counter_advancement sampleE 4 sampleCtx sampleBuf 17
      (by decide) (by decide) _ (List.mem_cons_self _ _)).1⟩

/-- C3: for every 16-byte counter (bytes `< 256`) and every `k`,
`IncrementIvBy` rewrites the counter to the big-endian encoding of
`(value + k) mod 2 ^ 128`: the value is as claimed, and the result is again a
16-byte string of bytes `< 256` (so the encoding is the canonical one).  The
function is a total Lean function, matching "deterministic, no failure
path". -/
theorem claim_C3_IncrementIvBy_value (Iv : List Nat) (k : Nat)
    (hlen : Iv.length = 16) (hbytes : ∀ x ∈ Iv, x < 256) :
    beVal (IncrementIvBy Iv k) = (beVal Iv + k) % 2 ^ 128 ∧
      (IncrementIvBy Iv k).length = 16 ∧
      (∀ x ∈ IncrementIvBy Iv k, x < 256) := by
  refine ⟨?_, by rw [length_IncrementIvBy, hlen], mem_IncrementIvBy_lt _ _ hbytes⟩
  rw [beVal_IncrementIvBy _ _ hbytes, hlen,
    show (256 : Nat) ^ 16 = 2 ^ 128 from by norm_num]

/-- Witness for C3 at a concrete counter and increment. -/
theorem claim_C3_witness :
    sampleIv.length = 16 ∧
      beVal (IncrementIvBy sampleIv 1000) = (beVal sampleIv + 1000) % 2 ^ 128 :=
  ⟨by decide, (claim_C3_IncrementIvBy_value sampleIv 1000 (by decide) (by decide)).1⟩

/-- C8: `IncrementIvBy` is additive — incrementing by `k1` and then by `k2`
equals a single increment by `k1 + k2`, and incrementing by `0` is the
identity (this is what makes each worker's independently derived counter
`initial_iv + block_idx` equal the serially incremented counter). -/
theorem claim_C8_IncrementIvBy_additive (Iv : List Nat) (k1 k2 : Nat)
    (hbytes : ∀ x ∈ Iv, x < 256) :
    IncrementIvBy (IncrementIvBy Iv k1) k2 = IncrementIvBy Iv (k1 + k2) ∧
      IncrementIvBy Iv 0 = Iv :=
  ⟨IncrementIvBy_add Iv k1 k2 hbytes, IncrementIvBy_zero Iv⟩

/-- Witness for C8 at a concrete counter with a carry chain (255 + 1). -/
theorem claim_C8_witness :
    (∀ x ∈ [0, 0, 0, 0, 0, 0, 0, 0, 0, 0, 0, 0, 0, 0, 0, 255], x < 256) ∧
      IncrementIvBy (IncrementIvBy [0, 0, 0, 0, 0, 0, 0, 0, 0, 0, 0, 0, 0, 0, 0, 255] 255) 2
        = IncrementIvBy [0, 0, 0, 0, 0, 0, 0, 0, 0, 0, 0, 0, 0, 0, 0, 255] (255 + 2) :=
  ⟨by decide,
    (claim_C8_IncrementIvBy_additive [0, 0, 0, 0, 0, 0, 0, 0, 0, 0, 0, 0, 0, 0, 0, 255]
      255 2 (by decide)).1⟩

/-- C4: for every input length with `r = length mod 16 ≠ 0`, each CTR
transform XORs exactly the first `r` bytes of the keystream block for counter
`initial_counter + num_blocks` into `buf[16 * num_blocks .. length)` and
leaves the persisted counter advanced by one additional block beyond
`num_blocks`; when `r = 0`, the tail of the buffer (from `16 * num_blocks`
on) is untouched and no extra counter advance happens. -/
theorem claim_C4_remainder (E : List Nat → List Nat → List Nat)
    (W : Nat) (ctx : AES_ctx) (buf : List Nat) (length : Nat)
    (hW : 1 ≤ W) (hL : length ≤ buf.length) :
    ∀ res ∈ [AES_CTR_xcrypt_buffer_openmp E W ctx buf length,
      AES_CTR_xcrypt_buffer_openmp_shared_ctx E W ctx buf length,
      AES_CTR_xcrypt_buffer_openmp_false_sharing E W ctx buf length,
      AES_CTR_xcrypt_buffer_openmp_nowait E W ctx buf length],
      (length % AES_BLOCKLEN ≠ 0 →
        (∀ j, length / AES_BLOCKLEN * AES_BLOCKLEN ≤ j → j < length →
          res.2.getD j 0 = buf.getD j 0 ^^^
            (E ctx.RoundKey (IncrementIvBy ctx.Iv (length / AES_BLOCKLEN))).getD
              (j - length / AES_BLOCKLEN * AES_BLOCKLEN) 0) ∧
        res.1.Iv = IncrementIvBy (IncrementIvBy ctx.Iv (length / AES_BLOCKLEN)) 1) ∧
      (length % AES_BLOCKLEN = 0 →
        (∀ j, length / AES_BLOCKLEN * AES_BLOCKLEN ≤ j →
          res.2.getD j 0 = buf.getD j 0) ∧
        res.1.Iv = IncrementIvBy ctx.Iv (length / AES_BLOCKLEN)) := by
  have hser := openmp_eq_serial E W hW ctx buf length
  have hmain :
      (length % AES_BLOCKLEN ≠ 0 →
        (∀ j, length / AES_BLOCKLEN * AES_BLOCKLEN ≤ j → j < length →
          (AES_CTR_xcrypt_buffer_openmp E W ctx buf length).2.getD j 0 = buf.getD j 0 ^^^
            (E ctx.RoundKey (IncrementIvBy ctx.Iv (length / AES_BLOCKLEN))).getD
              (j - length / AES_BLOCKLEN * AES_BLOCKLEN) 0) ∧
        (AES_CTR_xcrypt_buffer_openmp E W ctx buf length).1.Iv
          = IncrementIvBy (IncrementIvBy ctx.Iv (length / AES_BLOCKLEN)) 1) ∧
      (length % AES_BLOCKLEN = 0 →
        (∀ j, length / AES_BLOCKLEN * AES_BLOCKLEN ≤ j →
          (AES_CTR_xcrypt_buffer_openmp E W ctx buf length).2.getD j 0 = buf.getD j 0) ∧
        (AES_CTR_xcrypt_buffer_openmp E W ctx buf length).1.Iv
          = IncrementIvBy ctx.Iv (length / AES_BLOCKLEN)) := by
    constructor
    · intro hrem
      constructor
      · intro j hj1 hj2
        rw [hser, getD_serial E ctx buf length hL j, if_pos hj2]
        unfold ctrKeystreamByte
        rw [show j / AES_BLOCKLEN = length / AES_BLOCKLEN from by
            simp only [AES_BLOCKLEN] at hj1 hj2 ⊢; omega,
          show j % AES_BLOCKLEN = j - length / AES_BLOCKLEN * AES_BLOCKLEN from by
            simp only [AES_BLOCKLEN] at hj1 hj2 ⊢; omega]
      · rw [openmp_Iv, if_pos hrem]
    · intro hrem
      constructor
      · intro j hj1
        rw [hser, getD_serial E ctx buf length hL j,
          if_neg (by simp only [AES_BLOCKLEN] at hrem hj1 ⊢; omega)]
      · rw [openmp_Iv, if_neg (not_not_intro hrem)]
  intro res hres
  simp only [List.mem_cons, List.not_mem_nil, or_false] at hres
  rcases hres with rfl | rfl | rfl | rfl
  · exact hmain
  · rw [shared_ctx_eq_openmp]
    exact hmain
  · rw [false_sharing_eq_openmp]
    exact hmain
  · rw [nowait_eq_openmp]
    exact hmain

/-- Witness for C4: a 17-byte buffer (one block plus one remainder byte), the
remainder byte at index 16. -/
theorem claim_C4_witness :
    (1 ≤ 4 ∧ 17 ≤ sampleBuf.length ∧ 17 % AES_BLOCKLEN ≠ 0) ∧
      (AES_CTR_xcrypt_buffer_openmp sampleE 4 sampleCtx sampleBuf 17).2.getD 16 0
        = sampleBuf.getD 16 0 ^^^
          (sampleE sampleCtx.RoundKey
            (IncrementIvBy sampleCtx.Iv (17 / AES_BLOCKLEN))).getD
            (16 - 17 / AES_BLOCKLEN * AES_BLOCKLEN) 0 :=
  ⟨⟨by decide, by decide, by decide⟩,
    ((claim_C4_remainder sampleE 4 sampleCtx sampleBuf 17 (by decide) (by decide)
        _ (List.mem_cons_self _ _)).1 (by decide)).1 16 (by decide) (by decide)⟩

/-- C5: encrypting and then decrypting (applying the same CTR transform again
with a freshly re-initialized context: same key schedule, same initial
counter) restores the original buffer, for each of the four strategies. -/
theorem claim_C5_involution (E : List Nat → List Nat → List Nat)
    (W : Nat) (ctx : AES_ctx) (buf : List Nat) (length : Nat)
    (hW : 1 ≤ W) (hL : length ≤ buf.length) :
    (AES_CTR_xcrypt_buffer_openmp E W ctx
        (AES_CTR_xcrypt_buffer_openmp E W ctx buf length).2 length).2 = buf ∧
    (AES_CTR_xcrypt_buffer_openmp_shared_ctx E W ctx
        (AES_CTR_xcrypt_buffer_openmp_shared_ctx E W ctx buf length).2 length).2 = buf ∧
    (AES_CTR_xcrypt_buffer_openmp_false_sharing E W ctx
        (AES_CTR_xcrypt_buffer_openmp_false_sharing E W ctx buf length).2 length).2 = buf ∧
    (AES_CTR_xcrypt_buffer_openmp_nowait E W ctx
        (AES_CTR_xcrypt_buffer_openmp_nowait E W ctx buf length).2 length).2 = buf := by
  have h := openmp_involution E W ctx buf length hW hL
  refine ⟨h, ?_, ?_, ?_⟩
  · rw [shared_ctx_eq_openmp, shared_ctx_eq_openmp]
    exact h
  · rw [false_sharing_eq_openmp, false_sharing_eq_openmp]
    exact h
  · rw [nowait_eq_openmp, nowait_eq_openmp]
    exact h

/-- Witness for C5: double application on a 17-byte buffer with 1 worker
restores the buffer. -/
theorem claim_C5_witness :
    (1 ≤ 1 ∧ 17 ≤ sampleBuf.length) ∧
      (AES_CTR_xcrypt_buffer_openmp sampleE 1 sampleCtx
        (AES_CTR_xcrypt_buffer_openmp sampleE 1 sampleCtx sampleBuf 17).2 17).2
        = sampleBuf :=
  ⟨⟨by decide, by decide⟩,
    (claim_C5_involution sampleE 1 sampleCtx sampleBuf 17 (by decide) (by decide)).1⟩

/-- C9: frame condition — each CTR transform preserves the buffer length,
leaves every byte at index `≥ length` unchanged, and leaves the context's
`RoundKey` unchanged; the only caller-visible mutations are `buf[0..length)`
and the context's `Iv`. -/
theorem claim_C9_frame (E : List Nat → List Nat → List Nat)
    (W : Nat) (ctx : AES_ctx) (buf : List Nat) (length : Nat)
    (hW : 1 ≤ W) (hL : length ≤ buf.length) :
    ∀ res ∈ [AES_CTR_xcrypt_buffer_openmp E W ctx buf length,
      AES_CTR_xcrypt_buffer_openmp_shared_ctx E W ctx buf length,
      AES_CTR_xcrypt_buffer_openmp_false_sharing E W ctx buf length,
      AES_CTR_xcrypt_buffer_openmp_nowait E W ctx buf length],
      res.2.length = buf.length ∧
        (∀ j, length ≤ j → res.2.getD j 0 = buf.getD j 0) ∧
        res.1.RoundKey = ctx.RoundKey := by
  have hser := openmp_eq_serial E W hW ctx buf length
  have hmain : (AES_CTR_xcrypt_buffer_openmp E W ctx buf length).2.length = buf.length ∧
      (∀ j, length ≤ j →
        (AES_CTR_xcrypt_buffer_openmp E W ctx buf length).2.getD j 0 = buf.getD j 0) ∧
      (AES_CTR_xcrypt_buffer_openmp E W ctx buf length).1.RoundKey = ctx.RoundKey := by
    refine ⟨by rw [hser, length_serial_snd], fun j hj => ?_,
      openmp_RoundKey E W ctx buf length⟩
    rw [hser, getD_serial E ctx buf length hL j, if_neg (by omega)]
  intro res hres
  simp only [List.mem_cons, List.not_mem_nil, or_false] at hres
  rcases hres with rfl | rfl | rfl | rfl
  · exact hmain
  · rw [shared_ctx_eq_openmp]
    exact hmain
  · rw [false_sharing_eq_openmp]
    exact hmain
  · rw [nowait_eq_openmp]
    exact hmain

/-- Witness for C9: the byte at index 20 of a 32-byte buffer survives a
17-byte transform, and the round key is untouched. -/
theorem claim_C9_witness :
    (1 ≤ 2 ∧ 17 ≤ sampleBuf.length) ∧
      (AES_CTR_xcrypt_buffer_openmp sampleE 2 sampleCtx sampleBuf 17).2.getD 20 0
        = sampleBuf.getD 20 0 ∧
      (AES_CTR_xcrypt_buffer_openmp sampleE 2 sampleCtx sampleBuf 17).1.RoundKey
        = sampleCtx.RoundKey :=
  ⟨⟨by decide, by decide⟩,
    (claim_C9_frame sampleE 2 sampleCtx sampleBuf 17 (by decide) (by decide)
      _ (List.mem_cons_self _ _)).2.1 20 (by decide),
    (claim_C9_frame sampleE 2 sampleCtx sampleBuf 17 (by decide) (by decide)
      _ (List.mem_cons_self _ _)).2.2⟩

/-- C6: for every `num_blocks` and every `num_workers ≥ 1`, the static
partition assigns each block index in `[0, num_blocks)` to exactly one
worker: the ranges are contiguous (`List.range'` by construction), pairwise
disjoint, cover exactly `[0, num_blocks)`, their sizes differ by at most one,
and when `num_workers > num_blocks` the excess workers receive empty ranges
(so perform no work). -/
theorem claim_C6_partition (num_blocks num_workers : Nat) (hW : 1 ≤ num_workers) :
    (∀ b, b < num_blocks →
      ∃! w, w < num_workers ∧ b ∈ workerBlocks num_blocks num_workers w) ∧
    (∀ w1 w2, w1 ≠ w2 → ∀ b, b ∈ workerBlocks num_blocks num_workers w1 →
      b ∉ workerBlocks num_blocks num_workers w2) ∧
    (∀ w b, w < num_workers → b ∈ workerBlocks num_blocks num_workers w →
      b < num_blocks) ∧
    (∀ w, workerBlocks num_blocks num_workers w
      = List.range' (wStart num_blocks num_workers w) (wSize num_blocks num_workers w)) ∧
    (∀ w1 w2, w1 < num_workers → w2 < num_workers →
      wSize num_blocks num_workers w1 ≤ wSize num_blocks num_workers w2 + 1) ∧
    (num_blocks < num_workers → ∀ w, num_blocks ≤ w →
      workerBlocks num_blocks num_workers w = []) := by
  refine ⟨fun b hb => partition_exactly_one _ _ hW b hb,
    fun w1 w2 hne b h1 => workerBlocks_disjoint _ _ w1 w2 hne b h1,
    fun w b hw hb => workerBlocks_subset _ _ hW w b hw hb,
    fun w => rfl,
    fun w1 w2 _ _ => ?_,
    fun hnW w hnw => ?_⟩
  · unfold wSize
    split_ifs <;> omega
  · have hdiv : num_blocks / num_workers = 0 := Nat.div_eq_of_lt hnW
    have hmod : num_blocks % num_workers = num_blocks := Nat.mod_eq_of_lt hnW
    unfold workerBlocks wSize
    rw [hdiv, hmod, if_neg (by omega)]
    rfl

/-- Witness for C6: 5 blocks over 2 workers — block 3 has exactly one owner,
worker 0's range is the contiguous first range, and the two range sizes
differ by at most one. -/
theorem claim_C6_witness :
    1 ≤ 2 ∧ (∃! w, w < 2 ∧ 3 ∈ workerBlocks 5 2 w) ∧
      workerBlocks 5 2 0 = List.range' (wStart 5 2 0) (wSize 5 2 0) ∧
      wSize 5 2 0 ≤ wSize 5 2 1 + 1 :=
  ⟨by decide,
    (claim_C6_partition 5 2 (by decide)).1 3 (by decide),
    (claim_C6_partition 5 2 (by decide)).2.2.2.1 0,
    (claim_C6_partition 5 2 (by decide)).2.2.2.2.1 0 1 (by decide) (by decide)⟩

/-- C7: a requested worker count of zero is coerced to one (the OpenMP
runtime never runs a parallel region with an empty team); with the resolved
count every parallel transform still returns exactly the serial reference's
result, and every block still belongs to exactly one worker's range — no
block is silently dropped. -/
theorem claim_C7_zero_worker_count (E : List Nat → List Nat → List Nat)
    (ctx : AES_ctx) (buf : List Nat) (length : Nat) :
    resolveWorkerCount 0 = 1 ∧
    (∀ res ∈ [AES_CTR_xcrypt_buffer_openmp E (resolveWorkerCount 0) ctx buf length,
      AES_CTR_xcrypt_buffer_openmp_shared_ctx E (resolveWorkerCount 0) ctx buf length,
      AES_CTR_xcrypt_buffer_openmp_false_sharing E (resolveWorkerCount 0) ctx buf length,
      AES_CTR_xcrypt_buffer_openmp_nowait E (resolveWorkerCount 0) ctx buf length],
      res = AES_CTR_xcrypt_buffer E ctx buf length) ∧
    (∀ num_blocks b, b < num_blocks →
      ∃! w, w < resolveWorkerCount 0 ∧
        b ∈ workerBlocks num_blocks (resolveWorkerCount 0) w) := by
  have h1 : 1 ≤ resolveWorkerCount 0 := by decide
  refine ⟨rfl, ?_, fun n b hb => partition_exactly_one n _ h1 b hb⟩
  have hser := openmp_eq_serial E (resolveWorkerCount 0) h1 ctx buf length
  intro res hres
  simp only [List.mem_cons, List.not_mem_nil, or_false] at hres
  rcases hres with rfl | rfl | rfl | rfl
  · exact hser
  · rw [shared_ctx_eq_openmp]
    exact hser
  · rw [false_sharing_eq_openmp]
    exact hser
  · rw [nowait_eq_openmp]
    exact hser

/-- Witness for C7: with a requested count of zero, the resolved count is
one, the transform matches the serial reference on a 17-byte buffer, and
block 2 of 5 has exactly one owner. -/
theorem claim_C7_witness :
    resolveWorkerCount 0 = 1 ∧
      AES_CTR_xcrypt_buffer_openmp sampleE (resolveWorkerCount 0) sampleCtx sampleBuf 17
        = AES_CTR_xcrypt_buffer sampleE sampleCtx sampleBuf 17 ∧
      (∃! w, w < resolveWorkerCount 0 ∧ 2 ∈ workerBlocks 5 (resolveWorkerCount 0) w) :=
  ⟨(claim_C7_zero_worker_count sampleE sampleCtx sampleBuf 17).1,
    (claim_C7_zero_worker_count sampleE sampleCtx sampleBuf 17).2.1
      _ (List.mem_cons_self _ _),
    (claim_C7_zero_worker_count sampleE sampleCtx sampleBuf 17).2.2 5 2 (by decide)⟩

/-- C10: in `AES_CTR_xcrypt_buffer_openmp_false_sharing`, the accesses
`thread_ivs[thread_id]` and `thread_buffers[thread_id]` are within the bounds
of the `MAX_THREADS`-element static arrays whenever the worker count is at
most `MAX_THREADS` (256) — and for any `thread_id ≥ MAX_THREADS` the access
is out of bounds (`none`): the bound is a precondition the function itself
never checks. -/
theorem claim_C10_scratch_bounds :
    (∀ num_threads thread_id, num_threads ≤ MAX_THREADS → thread_id < num_threads →
      (fsScratchAccess thread_id).isSome = true) ∧
    (∀ thread_id, MAX_THREADS ≤ thread_id → fsScratchAccess thread_id = none) := by
  constructor
  · intro W tid hW htid
    unfold fsScratchAccess
    rw [dif_pos (by simp only [MAX_THREADS] at hW ⊢; omega)]
    rfl
  · intro tid h
    unfold fsScratchAccess
    rw [dif_neg (by simp only [MAX_THREADS] at h ⊢; omega)]

/-- Witness for C10: thread 3 of an 8-thread team is in bounds; thread id 300
is out of bounds. -/
theorem claim_C10_witness :
    (8 ≤ MAX_THREADS ∧ (fsScratchAccess 3).isSome = true) ∧
      (MAX_THREADS ≤ 300 ∧ fsScratchAccess 300 = none) :=
  ⟨⟨by decide, claim_C10_scratch_bounds.1 8 3 (by decide) (by decide)⟩,
    ⟨by decide, claim_C10_scratch_bounds.2 300 (by decide)⟩⟩
